import Mathlib

/-!
Shallow embedding of the gdocstr docstring parser
(`src/gdocstr/parse.py` and `src/gdocstr/docstring.py`).

Lines are modelled as lists of characters; Python strings at the API
boundary are Lean `String`s.  The three compiled regular expressions of
`GoogleDocString` and Python's `str.split` are embedded as structural
matching functions reproducing their behaviour on the relevant inputs.
-/

namespace Gdocstr

/-- A line of text, without the terminating newline. -/
abbrev Line := List Char

/-- Python regex class `\s` (ASCII view): the whitespace characters. -/
def isPySpace (c : Char) : Bool :=
  c = ' ' || c = '\t' || c = '\n' || c = '\r' || c = '\x0b' || c = '\x0c'

/-- Python regex class `\w` (ASCII view): letters, digits, underscore. -/
def isWordChar (c : Char) : Bool := c.isAlphanum || c = '_'

/-- Prepend a character to the first piece of a split result. -/
def consHead (c : Char) : List Line → List Line
  | [] => [[c]]
  | h :: t => (c :: h) :: t

/-- Python `str.split(sep)` for a one-character separator; never returns
the empty list (`"".split(sep) == [""]`). -/
def pySplit (sep : Char) : List Char → List Line
  | [] => [[]]
  | c :: rest =>
    if c = sep then [] :: pySplit sep rest else consHead c (pySplit sep rest)

/-- Python `sep.join(lines)` for a one-character separator. -/
def joinWith (sep : Char) : List Line → Line
  | [] => []
  | [l] => l
  | l :: l2 :: rest => l ++ sep :: joinWith sep (l2 :: rest)

/-- The default `headers` configuration of `GoogleDocString.__init__`,
in the alternation order of the compiled header regex. -/
def headerKeywords : List String :=
  ["Args", "Arguments", "Returns", "Yields", "Raises", "Note",
   "Notes", "Example", "Examples", "Attributes", "Todo"]

/-- The default `indent` configuration (minimum indentation, 4). -/
def indentUnit : Nat := 4

/-- `GoogleDocString._get_indent`: the compiled pattern `(^\s{4,})` matches
the maximal leading whitespace run when its length is at least
`indentUnit`; the method returns the match's length, and `0` otherwise. -/
def getIndent (line : Line) : Nat :=
  let run := (line.takeWhile isPySpace).length
  if indentUnit ≤ run then run else 0

/-- `GoogleDocString._is_indent`: whether `_get_indent` is positive. -/
def isIndented (line : Line) : Bool := decide (0 < getIndent line)

/-- `GoogleDocString._is_header` / `_get_header`: the compiled pattern
`^\s*(Args|...|Todo):\s*`.  After the maximal leading whitespace run the
regex engine tries the alternatives in order; an alternative succeeds
exactly when the keyword followed by the delimiter `:` is a prefix of the
rest of the line (the trailing `\s*` always succeeds).  The captured
group is the keyword itself. -/
def headerAt (line : Line) : Option String :=
  headerKeywords.find? fun kw =>
    (kw.toList ++ [':']).isPrefixOf (line.dropWhile isPySpace)

/-- `GoogleDocString._is_header`. -/
def isHeader (line : Line) : Bool := (headerAt line).isSome

/-- `GoogleDocString._get_header` (empty string when there is no match). -/
def getHeader (line : Line) : String := (headerAt line).getD ""

/-- `GoogleDocString._get_next_line` applied to the lines after the
current one: the first non-empty line, or an empty line when reading past
the last line. -/
def nextNonEmpty (ls : List Line) : Line := (ls.find? fun l => !l.isEmpty).getD []

/-- All ways to split the text after an opening parenthesis as
`body ++ post` where `body` is non-empty and ends with `)`: the
candidates for `\(.*\)`, longest first (the order a greedy `.*` tries
them). -/
def closeSplits : List Char → List (Line × Line)
  | [] => []
  | c :: rest =>
    let deeper := (closeSplits rest).map fun p => (c :: p.1, p.2)
    if c = ')' then deeper ++ [([')'], rest)] else deeper

/-- The tail `\s*: ` of the argument pattern: a maximal whitespace run,
then the literal `arg_delimiter` `': '`; returns the rest of the line
(the `(.*)` capture). -/
def matchTail (cs : Line) : Option Line :=
  match cs.dropWhile isPySpace with
  | ':' :: ' ' :: rest => some rest
  | _ => none

/-- One attempt of the compiled pattern `(\w*)\s*(\(.*\))?\s*: (.*)`
anchored at the start of `cs` (Python retries at every later position,
see `getArg`).  `\w*` and the two `\s*` runs are safely maximal: their
character classes are disjoint from every character the next pattern
element can require, so the engine never backtracks into them.  The
optional parenthesized group is greedy: it tries the longest `.*` body
first and falls back to matching nothing. -/
def matchArgAt (cs : Line) : Option (Line × Line × Line) :=
  let word := cs.takeWhile isWordChar
  let r1 := cs.dropWhile isWordChar
  let r2 := r1.dropWhile isPySpace
  match r2 with
  | c :: r3 =>
    if c = '(' then
      match (closeSplits r3).findSome?
          (fun p => (matchTail p.2).map fun d => (word, '(' :: p.1, d)) with
      | some res => some res
      | none => (matchTail (c :: r3)).map fun d => (word, [], d)
    else (matchTail (c :: r3)).map fun d => (word, [], d)
  | [] => (matchTail ([] : Line)).map fun d => (word, [], d)

/-- `GoogleDocString._get_arg`: `findall` scans for the leftmost position
at which the argument pattern matches; `_parse_arglist` uses the first
match's groups. -/
def getArg : Line → Option (Line × Line × Line)
  | [] => none
  | c :: rest =>
    match matchArgAt (c :: rest) with
    | some r => some r
    | none => getArg rest

/-- The mutable scanning state of a `GoogleDocString` object:
`_sections` (the emitted section texts), `_section` (the pending line
accumulator) and `_indent` (the locked indent threshold). -/
structure SegState where
  sections : List Line
  sectionAcc : List Line
  indent : Nat
deriving DecidableEq, Repr

/-- The state of a freshly constructed `GoogleDocString`. -/
def SegState.init : SegState := ⟨[], [], 0⟩

/-- `GoogleDocString._end_section`: join the pending lines; emit the text
unless it is blank (`strip()` empty). -/
def endSection (st : SegState) : SegState :=
  let txt := joinWith '\n' st.sectionAcc
  if txt.all isPySpace then st else { st with sections := st.sections ++ [txt] }

/-- The list of texts `_end_section` emits from a pending accumulator:
none when the joined text is blank, otherwise the joined text. -/
def emitted (acc : List Line) : List Line :=
  if (joinWith '\n' acc).all isPySpace then [] else [joinWith '\n' acc]

/-- `GoogleDocString._begin_section`: clear the accumulator and reset the
indent threshold to 0. -/
def beginSection (st : SegState) : SegState := { st with sectionAcc := [], indent := 0 }

/-- `self._section.append(line[self._indent:])`. -/
def appendLine (st : SegState) (line : Line) : SegState :=
  { st with sectionAcc := st.sectionAcc ++ [line.drop st.indent] }

/-- One iteration of the loop of `GoogleDocString.extract_sections`, for
`line` with `nextNE` the next non-empty line after it.  Mirrors the
source order: first the threshold lock (guarded by the local
`new_section` flag), then the header test (with the missing-indent
check, a raised `SyntaxError` modelled as `.error`), then the
indent-drop test, then the append. -/
def segStep (st : SegState) (newSection : Bool) (line nextNE : Line) :
    Except String (SegState × Bool) :=
  let ci := getIndent line
  let lock := newSection && isIndented line
  let st1 := if lock then { st with indent := ci } else st
  let ns1 := if lock then false else newSection
  if isHeader line then
    if !(isIndented nextNE) then
      .error (("Missing indent after `") ++ String.mk nextNE ++ ("`"))
    else
      .ok (appendLine (beginSection (endSection st1)) line, true)
  else if line ≠ [] ∧ ci < st1.indent then
    .ok (appendLine (beginSection (endSection st1)) line, ns1)
  else
    .ok (appendLine st1 line, ns1)

/-- The loop of `GoogleDocString.extract_sections` over the remaining
lines, followed by the final `_end_section(); _begin_section()`. -/
def extractAux : List Line → SegState → Bool → Except String SegState
  | [], st, _ => .ok (beginSection (endSection st))
  | l :: rest, st, ns =>
    match segStep st ns l (nextNonEmpty rest) with
    | .error e => .error e
    | .ok (st2, ns2) => extractAux rest st2 ns2

/-- `GoogleDocString.extract_sections` run on a docstring from an
arbitrary object state (`new_section` starts as `True`). -/
def extractSectionsFrom (doc : String) (st : SegState) : Except String SegState :=
  extractAux (pySplit '\n' doc.toList) st true

/-- `GoogleDocString.extract_sections` on a fresh object: the list of
emitted section texts. -/
def extractSections (doc : String) : Except String (List String) :=
  (extractSectionsFrom doc SegState.init).map fun st => st.sections.map String.mk

/-- The dictionary returned by `GoogleDocString._parse_arglist` for one
argument: keys `field`, `signature`, `description`. -/
structure Field where
  field : String
  signature : String
  description : String
deriving DecidableEq, Repr

/-- The dictionary returned by `GoogleDocString.parse_section`:
keys `header`, `text`, `args`. -/
structure SectionData where
  header : String
  text : String
  args : List Field
deriving DecidableEq, Repr

/-- The `while self._is_indent(next_line)` loop of `_parse_arglist`:
advance the cursor by one, append the line now at the cursor (note: this
is `lines[ln+1]`, not the non-empty line that `_get_next_line` found),
and look again.  Structured with fuel; each iteration advances the
cursor, so `lines.length + 1` fuel always suffices. -/
def descLoop (lines : List Line) : Nat → Nat → List Line → (List Line × Nat)
  | 0, ln, acc => (acc, ln)
  | fuel + 1, ln, acc =>
    let nl := nextNonEmpty (lines.drop (ln + 1))
    if isIndented nl then descLoop lines fuel (ln + 1) (acc ++ [lines.getD (ln + 1) []])
    else (acc, ln)

/-- `GoogleDocString._parse_arglist` at cursor `ln`: returns the parsed
field (if the argument pattern matches the current line) and the final
cursor position. -/
def parseArglist (lines : List Line) (ln : Nat) : Option Field × Nat :=
  match getArg (lines.getD ln []) with
  | none => (none, ln)
  | some (name, sig, d0) =>
    let r := descLoop lines (lines.length + 1) ln [d0]
    (some ⟨String.mk name, String.mk sig, String.mk (joinWith '\n' r.1)⟩, r.2)

/-- The `while self._linenum < len(lines)` loop of `parse_section`:
either consume an argument (and the indented description lines after
it) or append the current line to the free text. -/
def parseLoop (lines : List Line) : Nat → Nat → List Line → List Field →
    (List Line × List Field)
  | 0, _, text, args => (text, args)
  | fuel + 1, ln, text, args =>
    if ln < lines.length then
      match parseArglist lines ln with
      | (some f, ln2) => parseLoop lines fuel (ln2 + 1) text (args ++ [f])
      | (none, _) => parseLoop lines fuel (ln + 1) (text ++ [lines.getD ln []]) args
    else (text, args)

/-- `GoogleDocString.parse_section`: split the section text into lines,
take the header from the first line, skip it when present, then run the
argument/text loop. -/
def parseSection (sectionText : Line) : SectionData :=
  let lines := pySplit '\n' sectionText
  let header := getHeader (lines.getD 0 [])
  let start := if header = "" then 0 else 1
  let r := parseLoop lines (lines.length + 1) start [] []
  ⟨header, String.mk (joinWith '\n' r.1), r.2⟩

/-- `DocString.parse`: `self.data = []`, then `extract_sections` (which
appends to the persistent `_sections`), then parse every section in
`self._sections`.  Returns the data list and the updated object state. -/
def parse (doc : String) (st : SegState) : Except String (List SectionData × SegState) :=
  match extractSectionsFrom doc st with
  | .error e => .error e
  | .ok st2 => .ok (st2.sections.map parseSection, st2)

/-- Python `str.isupper` on a single ASCII character. -/
def pyIsUpper (c : Char) : Bool := decide (65 ≤ c.toNat ∧ c.toNat ≤ 90)

/-- An ASCII lower-case letter (used to state the spec's lower-case
clause). -/
def pyIsLower (c : Char) : Bool := decide (97 ≤ c.toNat ∧ c.toNat ≤ 122)

/-- `docstring.get_names`: split the query on `.`; one segment is a
module (empty), class (upper-case initial) or function; two segments are
a method; anything else raises `ValueError`, modelled as `.error`.
(`query.split('.')` never yields zero segments; the catch-all arm covers
three or more.)  Returns `(classname, funcname, dtype)`. -/
def getNames (query : String) : Except String (String × String × String) :=
  let members := pySplit '.' query.toList
  if members.length = 1 then
    let m := members.headD []
    if m.isEmpty then .ok ("", "", "module")
    else if pyIsUpper (m.headD ' ') then .ok (query, "", "class")
    else .ok ("", query, "function")
  else if members.length = 2 then
    .ok (String.mk (members.getD 0 []), String.mk (members.getD 1 []), "method")
  else .error (("Unable to parse: `") ++ query ++ ("`"))

/-- A constructed `GoogleDocString` instance: the docstring it was given
and its fresh internal state. -/
structure GoogleDocStringObj where
  docstring : String
  state : SegState
deriving DecidableEq, Repr

/-- `parse.parser`: look `choice` up among the supported parsers
(`{'Google': GoogleDocString}`).  In the `else` branch the source builds
a `NotImplementedError` value but does not `raise` it, so the function
falls through and returns `None`; accordingly the result is `.ok none`,
never `.error`. -/
def parserFactory (obj : String) (choice : String) :
    Except String (Option GoogleDocStringObj) :=
  if choice = "Google" then .ok (some ⟨obj, SegState.init⟩)
  else
    let _unraised := ("The docstring parser `") ++ choice ++ ("` is not implemented")
    .ok none

/-- Specification predicate for claim C4: no header line is followed
(skipping empty lines) by a non-indented next line; `extract_sections`
raises exactly when this fails. -/
def headersOk : List Line → Bool
  | [] => true
  | l :: rest => !(isHeader l && !(isIndented (nextNonEmpty rest))) && headersOk rest

/-- Count of non-blank lines (lines with a non-whitespace character). -/
def countNB (ls : List Line) : Nat := ls.countP fun l => !(l.all isPySpace)

/-- Total number of non-blank lines across emitted section texts. -/
def totalNB (secs : List String) : Nat :=
  (secs.map fun s => countNB (pySplit '\n' s.toList)).sum

/-- Number of non-blank lines of a docstring. -/
def nonBlankCount (doc : String) : Nat := countNB (pySplit '\n' doc.toList)

/-- Number of recognized header lines of a docstring. -/
def headerCount (doc : String) : Nat := (pySplit '\n' doc.toList).countP isHeader

/-- Line-level total of non-blank lines across emitted section texts. -/
def totalNBL (secs : List Line) : Nat :=
  (secs.map fun s => countNB (pySplit '\n' s)).sum

theorem takeWhile_all_eq {p : Char → Bool} {l : Line} (h : l.all p = true) :
    l.takeWhile p = l :=
  List.takeWhile_eq_self_iff.mpr (List.all_eq_true.mp h)

theorem all_drop {p : Char → Bool} {l : Line} (k : Nat) (h : l.all p = true) :
    (l.drop k).all p = true := by
  rw [List.all_eq_true] at *
  exact fun x hx => h x (List.drop_subset k l hx)

theorem dropWhile_drop_of_take_all {p : Char → Bool} :
    ∀ (l : Line) (k : Nat), (l.take k).all p = true →
      (l.drop k).dropWhile p = l.dropWhile p := by
  intro l
  induction l with
  | nil => intro k _; simp
  | cons c cs ih =>
    intro k hk
    cases k with
    | zero => simp
    | succ k =>
      simp only [List.take_succ_cons, List.all_cons, Bool.and_eq_true] at hk
      simp [List.drop_succ_cons, List.dropWhile_cons, hk.1, ih k hk.2]

theorem take_all_of_le_takeWhile {p : Char → Bool} :
    ∀ (l : Line) (k : Nat), k ≤ (l.takeWhile p).length →
      (l.take k).all p = true := by
  intro l
  induction l with
  | nil => intro k h; simp at h; simp [h]
  | cons c cs ih =>
    intro k h
    cases k with
    | zero => simp
    | succ k =>
      by_cases hc : p c
      · rw [List.takeWhile_cons, if_pos hc] at h
        simp only [List.length_cons, Nat.add_le_add_iff_right] at h
        simp [List.take_succ_cons, hc, ih k h]
      · rw [List.takeWhile_cons, if_neg hc] at h
        simp at h

theorem pySplit_ne_nil (sep : Char) (cs : List Char) : pySplit sep cs ≠ [] := by
  induction cs with
  | nil => simp [pySplit]
  | cons c rest ih =>
    by_cases hc : c = sep
    · simp [pySplit, hc]
    · cases h : pySplit sep rest with
      | nil => exact absurd h ih
      | cons hd tl => simp [pySplit, hc, h, consHead]

theorem sep_not_mem_pySplit (sep : Char) :
    ∀ (cs : List Char), ∀ l ∈ pySplit sep cs, sep ∉ l := by
  intro cs
  induction cs with
  | nil =>
    intro l hl
    simp [pySplit] at hl
    simp [hl]
  | cons c rest ih =>
    intro l hl
    by_cases hc : c = sep
    · simp only [pySplit, hc, if_true] at hl
      rcases List.mem_cons.mp hl with rfl | hl
      · simp
      · exact ih l hl
    · simp only [pySplit, hc, if_false] at hl
      cases h : pySplit sep rest with
      | nil => exact absurd h (pySplit_ne_nil sep rest)
      | cons hd tl =>
        rw [h] at hl
        simp only [consHead] at hl
        have ihh := fun x hx => ih x (h ▸ hx)
        rcases List.mem_cons.mp hl with rfl | hl
        · have hhd : sep ∉ hd := ihh hd (List.mem_cons_self hd tl)
          intro hmem
          rcases List.mem_cons.mp hmem with h1 | h1
          · exact hc h1.symm
          · exact hhd h1
        · exact ihh l (List.mem_cons_of_mem hd hl)

theorem pySplit_sepFree (sep : Char) (l : Line) (h : sep ∉ l) :
    pySplit sep l = [l] := by
  induction l with
  | nil => rfl
  | cons c cs ih =>
    simp only [List.mem_cons, not_or] at h
    have hc : ¬(c = sep) := fun hh => h.1 hh.symm
    simp [pySplit, hc, ih h.2, consHead]

theorem pySplit_append_sep (sep : Char) :
    ∀ (l : Line) (xs : List Char), sep ∉ l →
      pySplit sep (l ++ sep :: xs) = l :: pySplit sep xs := by
  intro l
  induction l with
  | nil =>
    intro xs _
    simp [pySplit]
  | cons c cs ih =>
    intro xs h
    simp only [List.mem_cons, not_or] at h
    have hc : ¬(c = sep) := fun hh => h.1 hh.symm
    simp only [List.cons_append, pySplit, hc, if_false, List.append_eq, ih xs h.2, consHead]

theorem pySplit_joinWith (sep : Char) :
    ∀ (ls : List Line), ls ≠ [] → (∀ l ∈ ls, sep ∉ l) →
      pySplit sep (joinWith sep ls) = ls := by
  intro ls
  induction ls with
  | nil => intro h; exact absurd rfl h
  | cons l rest ih =>
    intro _ hall
    cases rest with
    | nil => simpa [joinWith] using pySplit_sepFree sep l (hall l (by simp))
    | cons l2 rest2 =>
      have hj : joinWith sep (l :: l2 :: rest2) = l ++ sep :: joinWith sep (l2 :: rest2) := rfl
      rw [hj, pySplit_append_sep sep l _ (hall l (by simp)),
        ih (by simp) (fun x hx => hall x (List.mem_cons_of_mem l hx))]

theorem joinWith_all {p : Char → Bool} {sep : Char} (hsep : p sep = true) :
    ∀ (ls : List Line), (joinWith sep ls).all p = ls.all (fun l => l.all p) := by
  intro ls
  induction ls with
  | nil => rfl
  | cons l rest ih =>
    cases rest with
    | nil => simp [joinWith]
    | cons l2 rest2 =>
      have hj : joinWith sep (l :: l2 :: rest2) = l ++ sep :: joinWith sep (l2 :: rest2) := rfl
      rw [hj]
      simp [List.all_append, List.all_cons, hsep, ih]

theorem isHeader_drop (l : Line) (k : Nat) (h : (l.take k).all isPySpace = true) :
    isHeader (l.drop k) = isHeader l := by
  unfold isHeader headerAt
  rw [dropWhile_drop_of_take_all l k h]

theorem getHeader_of_not_header {l : Line} (h : isHeader l = false) :
    getHeader l = "" := by
  unfold isHeader at h
  unfold getHeader
  cases hh : headerAt l with
  | none => rfl
  | some kw => rw [hh] at h; simp at h

theorem endSection_eq (st : SegState) :
    endSection st = { st with sections := st.sections ++ emitted st.sectionAcc } := by
  unfold endSection emitted
  by_cases h : (joinWith '\n' st.sectionAcc).all isPySpace <;> simp [h]

theorem getIndent_def (l : Line) :
    getIndent l = if indentUnit ≤ (l.takeWhile isPySpace).length
      then (l.takeWhile isPySpace).length else 0 := rfl

/-- Claim C7, corrected.  The spec says every empty or all-whitespace line
gets indent 0, counts as not indented, and never by itself terminates a
section.  In the code this holds for the empty line and for whitespace
runs shorter than `indentUnit`, but an all-whitespace line of length at
least `indentUnit` gets its full length as indent and counts as
indented, and a non-empty whitespace line whose indent is below the
locked threshold does terminate the section (see the counterexample).
This theorem proves the amended statement: (1) an empty or short
whitespace line has indent 0 and is not indented; (2) an all-whitespace
line of length ≥ `indentUnit` has its length as indent and is indented;
(3) an empty line is always just appended by the segmenter step — it
never emits a section, locks the threshold, or raises. -/
theorem indentAnalyzer_whitespace_behavior :
    (∀ l : Line, l.all isPySpace = true → l.length < indentUnit →
      getIndent l = 0 ∧ isIndented l = false)
    ∧ (∀ l : Line, l.all isPySpace = true → indentUnit ≤ l.length →
      getIndent l = l.length ∧ isIndented l = true)
    ∧ (∀ (st : SegState) (ns : Bool) (nextNE : Line),
      segStep st ns [] nextNE = .ok ({ st with sectionAcc := st.sectionAcc ++ [[]] }, ns)) := by
  refine ⟨?_, ?_, ?_⟩
  · intro l h1 h2
    have ht : l.takeWhile isPySpace = l := takeWhile_all_eq h1
    have hg : getIndent l = 0 := by
      rw [getIndent_def, ht, if_neg (by omega)]
    exact ⟨hg, by simp [isIndented, hg]⟩
  · intro l h1 h2
    have ht : l.takeWhile isPySpace = l := takeWhile_all_eq h1
    have hg : getIndent l = l.length := by
      rw [getIndent_def, ht, if_pos h2]
    have h2n : 4 ≤ l.length := h2
    refine ⟨hg, ?_⟩
    simp only [isIndented, hg, decide_eq_true_eq]
    omega
  · intro st ns nextNE
    have h1 : isHeader ([] : Line) = false := by decide
    have h2 : isIndented ([] : Line) = false := by decide
    unfold segStep
    simp [h1, h2, appendLine]

/-- Witness for the amended C7 at concrete inputs. -/
theorem indentAnalyzer_whitespace_behavior_witness :
    (getIndent (("  ").toList) = 0 ∧ isIndented (("  ").toList) = false)
    ∧ (getIndent (("     ").toList) = (("     ").toList).length
        ∧ isIndented (("     ").toList) = true)
    ∧ segStep SegState.init true [] []
        = .ok ({ SegState.init with sectionAcc := SegState.init.sectionAcc ++ [[]] }, true) :=
  ⟨indentAnalyzer_whitespace_behavior.1 (("  ").toList) (by decide) (by decide),
   indentAnalyzer_whitespace_behavior.2.1 (("     ").toList) (by decide) (by decide),
   indentAnalyzer_whitespace_behavior.2.2 SegState.init true []⟩

/-- Counterexample to claim C7 as stated: the all-whitespace line of four
spaces gets indent 4 and counts as indented, and a short whitespace line
terminates a section: in `"    a\n  \n    b"` the two-space line ends the
first section (the next line is kept verbatim in a new section). -/
theorem whitespace_line_nonzero_indent_cex :
    getIndent (("    ").toList) = 4 ∧ isIndented (("    ").toList) = true
    ∧ extractSections ("    a\n  \n    b") = .ok (["a", "  \n    b"]) :=
  ⟨rfl, rfl, rfl⟩

/-- Claim C8: query-kind resolution (`docstring.get_names`).  The empty
query is a module; a one-segment query is a class when its first letter
is upper-case and a function when it is lower-case; a two-segment query
is a method; more than two segments raise `ValueError`. -/
theorem getNames_query_kinds :
    getNames ("") = .ok ("", "", "module")
    ∧ (∀ (q : String) (m : Line), pySplit '.' q.toList = [m] → m ≠ [] →
        pyIsUpper (m.headD ' ') = true → getNames q = .ok (q, "", "class"))
    ∧ (∀ (q : String) (m : Line), pySplit '.' q.toList = [m] → m ≠ [] →
        pyIsLower (m.headD ' ') = true → getNames q = .ok ("", q, "function"))
    ∧ (∀ (q : String) (a b : Line), pySplit '.' q.toList = [a, b] →
        getNames q = .ok (String.mk a, String.mk b, "method"))
    ∧ (∀ q : String, 2 < (pySplit '.' q.toList).length →
        ∃ e, getNames q = .error e) := by
  refine ⟨by rfl, ?_, ?_, ?_, ?_⟩
  · intro q m hsplit hm hup
    have hsplit2 : pySplit '.' q.data = [m] := hsplit
    cases m with
    | nil => exact absurd rfl hm
    | cons c cs =>
      have hup2 : pyIsUpper c = true := by simpa using hup
      simp [getNames, hsplit2, hup2]
  · intro q m hsplit hm hlo
    have hsplit2 : pySplit '.' q.data = [m] := hsplit
    cases m with
    | nil => exact absurd rfl hm
    | cons c cs =>
      have hlo2 : pyIsLower c = true := by simpa using hlo
      have hup2 : pyIsUpper c = false := by
        simp only [pyIsLower, decide_eq_true_eq] at hlo2
        simp only [pyIsUpper, decide_eq_false_iff_not]
        omega
      simp [getNames, hsplit2, hup2]
  · intro q a b hsplit
    have hsplit2 : pySplit '.' q.data = [a, b] := hsplit
    simp [getNames, hsplit2]
  · intro q hlen
    have hlen2 : 2 < (pySplit '.' q.data).length := hlen
    refine ⟨("Unable to parse: `") ++ q ++ ("`"), ?_⟩
    have h1 : ¬((pySplit '.' q.data).length = 1) := by omega
    have h2 : ¬((pySplit '.' q.data).length = 2) := by omega
    simp [getNames, h1, h2]

/-- Witness for C8 at the five concrete queries of the spec. -/
theorem getNames_query_kinds_witness :
    getNames ("") = .ok ("", "", "module")
    ∧ getNames ("Foo") = .ok ("Foo", "", "class")
    ∧ getNames ("foo") = .ok ("", "foo", "function")
    ∧ getNames ("Foo.bar") = .ok ("Foo", "bar", "method")
    ∧ (∃ e, getNames ("a.b.c") = .error e) :=
  ⟨getNames_query_kinds.1,
   getNames_query_kinds.2.1 ("Foo") (("Foo").toList) (by decide) (by decide) (by decide),
   getNames_query_kinds.2.2.1 ("foo") (("foo").toList) (by decide) (by decide) (by decide),
   getNames_query_kinds.2.2.2.1 ("Foo.bar") (("Foo").toList) (("bar").toList) (by decide),
   getNames_query_kinds.2.2.2.2 ("a.b.c") (by decide)⟩

/-- Claim C9: for any choice other than `'Google'` the `parser` factory
returns `None` and raises nothing — the `NotImplementedError` in the
source is constructed but never raised. -/
theorem parserFactory_unknown_choice (obj choice : String) (h : choice ≠ "Google") :
    parserFactory obj choice = .ok none := by
  unfold parserFactory
  rw [if_neg h]

/-- Witness for C9 at a concrete non-Google choice. -/
theorem parserFactory_unknown_choice_witness :
    parserFactory ("docstring") ("NumPy") = .ok none :=
  parserFactory_unknown_choice ("docstring") ("NumPy") (by decide)

/-- Counterexample to claim C1 as stated: `"    a\nb"` contains no header
line, yet segmentation emits two sections (the indent drop at `"b"` ends
the first one), not exactly one. -/
theorem headerless_two_sections_cex :
    ((pySplit '\n' (("    a\nb").toList)).all (fun l => !(isHeader l))) = true
    ∧ extractSections ("    a\nb") = .ok (["a", "b"])
    ∧ ¬((["a", "b"] : List String).length = 1) :=
  ⟨rfl, rfl, by decide⟩

/-- Counterexample to claim C2 as stated: for `"Args:\n    x"` the single
emitted block is `"Args:\nx"`, which still contains the header line, so
the blocks hold 2 non-blank lines while the docstring has 2 non-blank
lines and 1 header line, and `2 ≤ 2 - 1` fails. -/
theorem header_kept_in_block_cex :
    extractSections ("Args:\n    x") = .ok (["Args:\nx"])
    ∧ totalNB (["Args:\nx"]) = 2
    ∧ nonBlankCount ("Args:\n    x") = 2
    ∧ headerCount ("Args:\n    x") = 1
    ∧ ¬(totalNB (["Args:\nx"]) ≤ nonBlankCount ("Args:\n    x") - headerCount ("Args:\n    x"))
    ∧ isHeader (("Args:").toList) = true
    ∧ (pySplit '\n' (("Args:\nx").toList)).contains (("Args:").toList) = true :=
  ⟨rfl, rfl, rfl, rfl, by decide, rfl, rfl⟩

/-- Counterexample to claim C3 as stated: in `"    a\nb\n        c\nd"`
the line `"b"` triggers an indent-drop section split, but the new
implicit section's threshold is never re-locked: the later line
`"        c"` keeps its indentation verbatim and the following
unindented `"d"` stays in the same section, whereas the claimed
first-indented-line re-locking would dedent `c` and split before `d`. -/
theorem indent_drop_no_relock_cex :
    extractSections ("    a\nb\n        c\nd") = .ok (["a", "b\n        c\nd"])
    ∧ extractSections ("    a\nb\n        c\nd") ≠ .ok (["a", "b\nc", "d"]) := by
  have h1 : extractSections ("    a\nb\n        c\nd") = .ok (["a", "b\n        c\nd"]) := rfl
  refine ⟨h1, ?_⟩
  rw [h1]
  intro h
  exact absurd (Except.ok.inj h) (by decide)

/-- Counterexample to claim C5 as stated: parsing the field block
`["x: desc", "", "    more"]` appends the skipped blank line to the
description — the result is `"desc\n\n    more"`, whose split contains
the empty line. -/
theorem arglist_blank_in_description_cex :
    parseArglist [("x: desc").toList, [], ("    more").toList] 0
      = (some ⟨"x", "", "desc\n\n    more"⟩, 2)
    ∧ (pySplit '\n' (("desc\n\n    more").toList)).contains ([] : Line) = true :=
  ⟨rfl, rfl⟩

/-- Counterexample to claim C6 as stated: the section line `": foo"`
matches the argument pattern with an empty `\w*` capture, producing a
`FieldEntry` whose name is the empty string. -/
theorem empty_field_name_cex :
    parseSection ((": foo").toList) = ⟨"", "", [⟨"", "", "foo"⟩]⟩
    ∧ (parseSection ((": foo").toList)).args.map Field.field = [""] :=
  ⟨rfl, rfl⟩

theorem segStep_eq_cases (st : SegState) (ns : Bool) (line nextNE : Line) :
    segStep st ns line nextNE =
      (if isHeader line then
        if !(isIndented nextNE) then
          .error (("Missing indent after `") ++ String.mk nextNE ++ ("`"))
        else .ok (⟨st.sections ++ emitted st.sectionAcc, [line], 0⟩, true)
      else if line ≠ [] ∧ getIndent line <
          (if ns && isIndented line then getIndent line else st.indent) then
        .ok (⟨st.sections ++ emitted st.sectionAcc, [line], 0⟩,
          if ns && isIndented line then false else ns)
      else
        .ok (⟨st.sections,
          st.sectionAcc ++
            [line.drop (if ns && isIndented line then getIndent line else st.indent)],
          if ns && isIndented line then getIndent line else st.indent⟩,
          if ns && isIndented line then false else ns)) := by
  unfold segStep appendLine beginSection
  simp only [endSection_eq]
  by_cases hL : (ns && isIndented line) = true <;> simp [hL]

theorem segStep_error_iff (st : SegState) (ns : Bool) (line nextNE : Line) :
    (∃ e, segStep st ns line nextNE = .error e) ↔
      (isHeader line = true ∧ isIndented nextNE = false) := by
  rw [segStep_eq_cases]
  by_cases h1 : isHeader line = true
  · by_cases h2 : isIndented nextNE = true
    · simp [h1, h2]
    · simp only [Bool.not_eq_true] at h2
      simp [h1, h2]
  · simp only [Bool.not_eq_true] at h1
    simp only [h1, Bool.false_eq_true, if_false]
    constructor
    · rintro ⟨e, he⟩
      exfalso
      split at he <;> split at he <;> exact Except.noConfusion he
    · rintro ⟨h, _⟩
      exact h.elim

theorem extractAux_error_iff :
    ∀ (ls : List Line) (st : SegState) (ns : Bool),
      (∃ e, extractAux ls st ns = .error e) ↔ headersOk ls = false := by
  intro ls
  induction ls with
  | nil => intro st ns; simp [extractAux, headersOk]
  | cons l rest ih =>
    intro st ns
    unfold extractAux headersOk
    cases hstep : segStep st ns l (nextNonEmpty rest) with
    | error e =>
      have hh := (segStep_error_iff st ns l (nextNonEmpty rest)).mp ⟨e, hstep⟩
      simp [hh.1, hh.2]
    | ok p =>
      have hh : ¬(isHeader l = true ∧ isIndented (nextNonEmpty rest) = false) := by
        intro hc
        rcases (segStep_error_iff st ns l (nextNonEmpty rest)).mpr hc with ⟨e, he⟩
        rw [hstep] at he
        exact Except.noConfusion he
      have hb : (!(isHeader l && !(isIndented (nextNonEmpty rest)))) = true := by
        by_cases h : isHeader l = true
        · by_cases h2 : isIndented (nextNonEmpty rest) = true
          · simp [h, h2]
          · simp only [Bool.not_eq_true] at h2
            exact absurd ⟨h, h2⟩ hh
        · simp only [Bool.not_eq_true] at h
          simp [h]
      obtain ⟨st2, ns2⟩ := p
      simp [hb, ih st2 ns2]

/-- Claim C4: segmentation raises (`SyntaxError`, the spec's
MalformedSectionError) exactly when some header line's next non-empty
line — or the empty line, when the header is last — is not indented.  In
particular a header directly before end of input raises, and a docstring
whose every header is followed by an indented next non-empty line never
raises. -/
theorem extract_sections_error_iff_bad_header (doc : String) :
    (∃ e, extractSections doc = .error e)
      ↔ headersOk (pySplit '\n' doc.toList) = false := by
  unfold extractSections extractSectionsFrom
  have hiff := extractAux_error_iff (pySplit '\n' doc.toList) SegState.init true
  constructor
  · rintro ⟨e, he⟩
    apply hiff.mp
    cases hx : extractAux (pySplit '\n' doc.toList) SegState.init true with
    | error e2 => exact ⟨e2, rfl⟩
    | ok st =>
      rw [hx] at he
      exact Except.noConfusion he
  · intro hf
    rcases hiff.mpr hf with ⟨e, he⟩
    refine ⟨e, ?_⟩
    rw [he]
    rfl

/-- Witness for C4: a header at end of input raises, a header followed
by a non-indented line raises, and a well-formed docstring does not. -/
theorem extract_sections_error_iff_bad_header_witness :
    (∃ e, extractSections ("Args:") = .error e)
    ∧ (∃ e, extractSections ("Args:\nnope") = .error e)
    ∧ ¬(∃ e, extractSections ("Args:\n    ok") = .error e) :=
  ⟨(extract_sections_error_iff_bad_header ("Args:")).mpr (by decide),
   (extract_sections_error_iff_bad_header ("Args:\nnope")).mpr (by decide),
   fun h =>
     absurd ((extract_sections_error_iff_bad_header ("Args:\n    ok")).mp h)
       (by decide)⟩

/-- Claim C3, corrected.  A non-empty, non-header line whose indent is
below the locked threshold does close the current section and start a
new headerless one with threshold 0 — but, contrary to the claim, the
threshold is never re-locked: an indent-drop split does not set the
`new_section` flag, so (second conjunct) every later non-header line of
the implicit section is appended verbatim and the threshold stays 0
until the next header. -/
theorem indent_drop_resets_without_relock :
    (∀ (st : SegState) (line nextNE : Line),
      isHeader line = false → line ≠ [] → getIndent line < st.indent →
      segStep st false line nextNE
        = .ok (⟨st.sections ++ emitted st.sectionAcc, [line], 0⟩, false))
    ∧ (∀ (st : SegState) (line nextNE : Line),
      st.indent = 0 → isHeader line = false →
      segStep st false line nextNE
        = .ok (⟨st.sections, st.sectionAcc ++ [line], 0⟩, false)) := by
  constructor
  · intro st line nextNE hh hne hlt
    rw [segStep_eq_cases]
    simp only [hh, Bool.false_eq_true, if_false, Bool.false_and]
    rw [if_pos ⟨hne, hlt⟩]
  · intro st line nextNE h0 hh
    rw [segStep_eq_cases]
    simp only [hh, Bool.false_eq_true, if_false, Bool.false_and, h0]
    rw [if_neg (fun hc => Nat.not_lt_zero _ hc.2)]
    simp

/-- Witness for the amended C3: a concrete drop step (threshold 4, line
`"b"`), then a later indented line appended verbatim at threshold 0. -/
theorem indent_drop_resets_without_relock_witness :
    segStep (⟨[], [[('a' : Char)]], 4⟩ : SegState) false [('b' : Char)] []
      = .ok (⟨([] : List Line) ++ emitted [[('a' : Char)]], [[('b' : Char)]], 0⟩, false)
    ∧ segStep (⟨[], [[('b' : Char)]], 0⟩ : SegState) false (("        c").toList) []
      = .ok (⟨[], [[('b' : Char)]] ++ [("        c").toList], 0⟩, false) :=
  ⟨indent_drop_resets_without_relock.1 (⟨[], [[('a' : Char)]], 4⟩ : SegState)
      [('b' : Char)] [] (by decide) (by decide) (by decide),
   indent_drop_resets_without_relock.2 (⟨[], [[('b' : Char)]], 0⟩ : SegState)
      (("        c").toList) [] rfl (by decide)⟩

theorem extractAux_ends_clean :
    ∀ (ls : List Line) (st : SegState) (ns : Bool) (st2 : SegState),
      extractAux ls st ns = .ok st2 → st2.sectionAcc = [] ∧ st2.indent = 0 := by
  intro ls
  induction ls with
  | nil =>
    intro st ns st2 h
    unfold extractAux at h
    rw [Except.ok.injEq] at h
    exact ⟨by rw [← h]; rfl, by rw [← h]; rfl⟩
  | cons l rest ih =>
    intro st ns st2 h
    unfold extractAux at h
    cases hstep : segStep st ns l (nextNonEmpty rest) with
    | error e => rw [hstep] at h; exact Except.noConfusion h
    | ok p =>
      obtain ⟨stm, nsm⟩ := p
      rw [hstep] at h
      exact ih stm nsm st2 h

theorem segStep_sections_prepend (S : List Line) (st : SegState) (ns : Bool) (line nextNE : Line)
    (st2 : SegState) (ns2 : Bool) (h : segStep st ns line nextNE = .ok (st2, ns2)) :
    segStep { st with sections := S ++ st.sections } ns line nextNE
      = .ok ({ st2 with sections := S ++ st2.sections }, ns2) := by
  rw [segStep_eq_cases] at h
  rw [segStep_eq_cases]
  dsimp only
  by_cases hH : isHeader line = true
  · by_cases hI : isIndented nextNE = true
    · rw [if_pos hH, if_neg (by simp [hI])] at h
      rw [if_pos hH, if_neg (by simp [hI])]
      rw [Except.ok.injEq, Prod.mk.injEq] at h
      obtain ⟨h1, h2⟩ := h
      rw [← h1, ← h2]
      simp [List.append_assoc]
    · simp only [Bool.not_eq_true] at hI
      rw [if_pos hH, if_pos (by simp [hI])] at h
      exact Except.noConfusion h
  · simp only [Bool.not_eq_true] at hH
    rw [if_neg (by simp [hH])] at h
    rw [if_neg (by simp [hH])]
    by_cases hD : line ≠ [] ∧ getIndent line <
        (if ns && isIndented line then getIndent line else st.indent)
    · rw [if_pos hD] at h
      rw [if_pos hD]
      rw [Except.ok.injEq, Prod.mk.injEq] at h
      obtain ⟨h1, h2⟩ := h
      rw [← h1, ← h2]
      simp [List.append_assoc]
    · rw [if_neg hD] at h
      rw [if_neg hD]
      rw [Except.ok.injEq, Prod.mk.injEq] at h
      obtain ⟨h1, h2⟩ := h
      rw [← h1, ← h2]

theorem extractAux_sections_prepend :
    ∀ (ls : List Line) (S : List Line) (st : SegState) (ns : Bool) (st2 : SegState),
      extractAux ls st ns = .ok st2 →
      extractAux ls { st with sections := S ++ st.sections } ns
        = .ok { st2 with sections := S ++ st2.sections } := by
  intro ls
  induction ls with
  | nil =>
    intro S st ns st2 h
    unfold extractAux at h ⊢
    rw [Except.ok.injEq] at h
    rw [Except.ok.injEq, ← h]
    rw [endSection_eq, endSection_eq]
    simp [beginSection, List.append_assoc]
  | cons l rest ih =>
    intro S st ns st2 h
    unfold extractAux at h ⊢
    cases hstep : segStep st ns l (nextNonEmpty rest) with
    | error e => rw [hstep] at h; exact Except.noConfusion h
    | ok p =>
      obtain ⟨stm, nsm⟩ := p
      rw [hstep] at h
      rw [segStep_sections_prepend S st ns l (nextNonEmpty rest) stm nsm hstep]
      exact ih S stm nsm st2 h

/-- Claim C10: `parse` on the same object is not idempotent.  A second
`parse` of the same docstring appends the same sections to the
persistent `_sections` list again, so it returns every parsed section
twice (`d1 ++ d1`) and the object ends with its section list doubled. -/
theorem parse_twice_duplicates (doc : String) (d1 : List SectionData) (st1 : SegState)
    (h : parse doc SegState.init = .ok (d1, st1)) :
    parse doc st1 = .ok (d1 ++ d1, ⟨st1.sections ++ st1.sections, [], 0⟩) := by
  unfold parse at h ⊢
  cases hx : extractSectionsFrom doc SegState.init with
  | error e => rw [hx] at h; exact Except.noConfusion h
  | ok stA =>
    rw [hx] at h
    rw [Except.ok.injEq, Prod.mk.injEq] at h
    obtain ⟨hd, hs⟩ := h
    subst hs
    unfold extractSectionsFrom at hx
    obtain ⟨hacc, hind⟩ := extractAux_ends_clean _ _ _ _ hx
    have hrepr : ({ SegState.init with
        sections := stA.sections ++ SegState.init.sections } : SegState) = stA := by
      cases stA with
      | mk s a i =>
        dsimp at hacc hind ⊢
        rw [hacc, hind]
        simp [SegState.init]
    have h2 := extractAux_sections_prepend (pySplit '\n' doc.toList) stA.sections
      SegState.init true stA hx
    rw [hrepr] at h2
    unfold extractSectionsFrom
    rw [h2]
    rw [Except.ok.injEq, Prod.mk.injEq]
    constructor
    · rw [← hd]
      dsimp only
      exact List.map_append parseSection stA.sections stA.sections
    · cases stA with
      | mk s a i =>
        dsimp at hacc hind ⊢
        rw [hacc, hind]

/-- Witness for C10 at the docstring `"hi"`. -/
theorem parse_twice_duplicates_witness :
    parse ("hi") (⟨[("hi").toList], [], 0⟩ : SegState)
      = .ok ([⟨"", "hi", []⟩, ⟨"", "hi", []⟩],
          ⟨[("hi").toList, ("hi").toList], [], 0⟩) :=
  parse_twice_duplicates ("hi") ([⟨"", "hi", []⟩])
    (⟨[("hi").toList], [], 0⟩ : SegState) (by rfl)

theorem range_map_getD_succ (lines : List Line) (ln n : Nat) :
    (List.range (n + 1)).map (fun j => lines.getD (ln + 1 + j) [])
      = lines.getD (ln + 1) [] ::
        (List.range n).map (fun j => lines.getD (ln + 1 + 1 + j) []) := by
  rw [List.range_succ_eq_map]
  simp only [List.map_cons, List.map_map, Nat.add_zero]
  congr 1
  apply List.map_congr_left
  intro j _
  simp only [Function.comp_apply]
  congr 1
  omega

theorem descLoop_spec :
    ∀ (fuel : Nat) (lines : List Line) (ln : Nat) (acc acc2 : List Line) (k : Nat),
      descLoop lines fuel ln acc = (acc2, k) →
      ln ≤ k ∧ acc2 = acc ++ (List.range (k - ln)).map (fun j => lines.getD (ln + 1 + j) []) := by
  intro fuel
  induction fuel with
  | zero =>
    intro lines ln acc acc2 k h
    unfold descLoop at h
    rw [Prod.mk.injEq] at h
    obtain ⟨h1, h2⟩ := h
    refine ⟨by omega, ?_⟩
    rw [← h1, ← h2]
    simp
  | succ fuel ih =>
    intro lines ln acc acc2 k h
    unfold descLoop at h
    dsimp only at h
    by_cases hI : isIndented (nextNonEmpty (lines.drop (ln + 1))) = true
    · rw [if_pos hI] at h
      obtain ⟨hle, heq⟩ := ih lines (ln + 1) (acc ++ [lines.getD (ln + 1) []]) acc2 k h
      refine ⟨by omega, ?_⟩
      rw [heq, List.append_assoc]
      congr 1
      have hk : k - ln = (k - (ln + 1)) + 1 := by omega
      rw [hk, range_map_getD_succ]
      rfl
    · rw [if_neg hI] at h
      rw [Prod.mk.injEq] at h
      obtain ⟨h1, h2⟩ := h
      refine ⟨by omega, ?_⟩
      rw [← h1, ← h2]
      simp

/-- Claim C5, corrected.  During multi-line field parsing the cursor
advances one line at a time and appends `lines[cursor]` after each
advance, so the description receives the whole contiguous run of lines
from the line after the field line up to the final cursor position —
verbatim, including any blank lines that `_get_next_line` skipped during
the lookahead (contrary to the claim, those blanks are appended). -/
theorem arglist_description_lines (lines : List Line) (ln : Nat) (f : Field) (k : Nat)
    (h : parseArglist lines ln = (some f, k)) :
    ln ≤ k ∧ ∃ name sig d0, getArg (lines.getD ln []) = some (name, sig, d0)
      ∧ f = ⟨String.mk name, String.mk sig,
          String.mk (joinWith '\n'
            (d0 :: (List.range (k - ln)).map (fun j => lines.getD (ln + 1 + j) [])))⟩ := by
  unfold parseArglist at h
  cases hg : getArg (lines.getD ln []) with
  | none =>
    rw [hg] at h
    exact absurd h (by simp)
  | some t =>
    obtain ⟨name, sig, d0⟩ := t
    rw [hg] at h
    dsimp only at h
    cases hr : descLoop lines (lines.length + 1) ln [d0] with
    | mk acc2 k2 =>
      rw [hr] at h
      rw [Prod.mk.injEq] at h
      obtain ⟨hf, hk⟩ := h
      obtain ⟨hle, heq⟩ := descLoop_spec (lines.length + 1) lines ln [d0] acc2 k2 hr
      subst hk
      rw [Option.some.injEq] at hf
      refine ⟨hle, name, sig, d0, rfl, ?_⟩
      rw [← hf, heq]
      rfl

/-- Witness for the amended C5: a field line with one indented
continuation line. -/
theorem arglist_description_lines_witness :
    (0 : Nat) ≤ 1 ∧ ∃ name sig d0,
      getArg (([("y: a").toList, ("    b").toList] : List Line).getD 0 [])
          = some (name, sig, d0)
      ∧ (⟨"y", "", "a\n    b"⟩ : Field) = ⟨String.mk name, String.mk sig,
          String.mk (joinWith '\n'
            (d0 :: (List.range (1 - 0)).map
              (fun j => ([("y: a").toList, ("    b").toList] : List Line).getD (0 + 1 + j) [])))⟩ :=
  arglist_description_lines ([("y: a").toList, ("    b").toList]) 0
    (⟨"y", "", "a\n    b"⟩ : Field) 1 (by rfl)

theorem closeSplits_shape :
    ∀ (cs : List Char) (p : Line × Line), p ∈ closeSplits cs →
      ∃ pre, p.1 = pre ++ [')'] := by
  intro cs
  induction cs with
  | nil => intro p hp; simp [closeSplits] at hp
  | cons c rest ih =>
    intro p hp
    unfold closeSplits at hp
    dsimp only at hp
    by_cases hc : c = ')'
    · rw [if_pos hc] at hp
      rw [List.mem_append] at hp
      rcases hp with hp | hp
      · rw [List.mem_map] at hp
        obtain ⟨q, hq, hcq⟩ := hp
        obtain ⟨pre, hpre⟩ := ih q hq
        refine ⟨c :: pre, ?_⟩
        rw [← hcq]
        dsimp only
        rw [hpre, List.cons_append]
      · simp at hp
        rw [hp]
        exact ⟨[], rfl⟩
    · rw [if_neg hc] at hp
      rw [List.mem_map] at hp
      obtain ⟨q, hq, hcq⟩ := hp
      obtain ⟨pre, hpre⟩ := ih q hq
      refine ⟨c :: pre, ?_⟩
      rw [← hcq]
      dsimp only
      rw [hpre, List.cons_append]

theorem matchArgAt_sig_shape (cs name sig desc : Line)
    (h : matchArgAt cs = some (name, sig, desc)) :
    sig = [] ∨ ∃ pre, sig = '(' :: (pre ++ [')']) := by
  unfold matchArgAt at h
  dsimp only at h
  cases hr2 : (cs.dropWhile isWordChar).dropWhile isPySpace with
  | nil =>
    rw [hr2] at h
    simp [matchTail] at h
  | cons c r3 =>
    rw [hr2] at h
    dsimp only at h
    by_cases hc : c = '('
    · rw [if_pos hc] at h
      cases hf : (closeSplits r3).findSome?
          (fun p => (matchTail p.2).map fun d =>
            (cs.takeWhile isWordChar, '(' :: p.1, d)) with
      | some res =>
        rw [hf] at h
        rw [Option.some.injEq] at h
        obtain ⟨p, hp, hps⟩ := List.exists_of_findSome?_eq_some hf
        rw [Option.map_eq_some'] at hps
        obtain ⟨d, _, hd2⟩ := hps
        obtain ⟨pre, hpre⟩ := closeSplits_shape r3 p hp
        right
        refine ⟨pre, ?_⟩
        rw [← hpre]
        have hres : res = (name, sig, desc) := h
        rw [hres] at hd2
        rw [Prod.mk.injEq, Prod.mk.injEq] at hd2
        exact hd2.2.1.symm
      | none =>
        rw [hf] at h
        rw [Option.map_eq_some'] at h
        obtain ⟨d, _, hd2⟩ := h
        left
        rw [Prod.mk.injEq, Prod.mk.injEq] at hd2
        exact hd2.2.1.symm
    · rw [if_neg hc] at h
      rw [Option.map_eq_some'] at h
      obtain ⟨d, _, hd2⟩ := h
      left
      rw [Prod.mk.injEq, Prod.mk.injEq] at hd2
      exact hd2.2.1.symm

/-- Claim C6, corrected.  The signature clause holds: whenever the
argument pattern matches, the captured signature is either absent (the
empty string) or a literal parenthesized group — it starts with `(` and
ends with `)`.  The name clause is false: `(\w*)` can capture the empty
string (see the counterexample), so a FieldEntry's name may be empty. -/
theorem field_signature_shape (line name sig desc : Line)
    (h : getArg line = some (name, sig, desc)) :
    sig = [] ∨ ∃ pre, sig = '(' :: (pre ++ [')']) := by
  induction line with
  | nil => simp [getArg] at h
  | cons c rest ih =>
    unfold getArg at h
    cases hm : matchArgAt (c :: rest) with
    | some r =>
      rw [hm] at h
      dsimp only at h
      rw [Option.some.injEq] at h
      rw [h] at hm
      exact matchArgAt_sig_shape (c :: rest) name sig desc hm
    | none =>
      rw [hm] at h
      dsimp only at h
      exact ih h

/-- Witness for the amended C6 at a field line with a signature. -/
theorem field_signature_shape_witness :
    ("(int)").toList = [] ∨ ∃ pre, ("(int)").toList = '(' :: (pre ++ [')']) :=
  field_signature_shape (("x (int): v").toList) (("x").toList)
    (("(int)").toList) (("v").toList) (by rfl)

theorem totalNBL_append (a b : List Line) :
    totalNBL (a ++ b) = totalNBL a + totalNBL b := by
  unfold totalNBL
  rw [List.map_append, List.sum_append]

theorem countNB_append (a b : List Line) :
    countNB (a ++ b) = countNB a + countNB b :=
  List.countP_append _ a b

theorem emitted_countNB (acc : List Line) (hnl : ∀ l ∈ acc, ('\n') ∉ l) :
    totalNBL (emitted acc) ≤ countNB acc := by
  unfold emitted
  by_cases hb : (joinWith '\n' acc).all isPySpace = true
  · rw [if_pos hb]
    simp [totalNBL]
  · rw [if_neg hb]
    cases hacc : acc with
    | nil =>
      subst hacc
      exact absurd rfl hb
    | cons a as =>
      rw [← hacc]
      unfold totalNBL
      simp only [List.map_cons, List.map_nil, List.sum_cons, List.sum_nil, Nat.add_zero]
      rw [pySplit_joinWith '\n' acc (by rw [hacc]; simp) hnl]

theorem countNB_single_le (l : Line) (k : Nat) :
    countNB [l.drop k] ≤ countNB [l] := by
  unfold countNB
  by_cases hb : l.all isPySpace = true
  · have hd := all_drop (p := isPySpace) k hb
    simp [List.countP_cons, hb, hd]
  · have hb2 : l.all isPySpace = false := by
      cases hstate : l.all isPySpace
      · rfl
      · exact absurd hstate hb
    simp only [List.countP_cons, List.countP_nil, hb2, Bool.not_false, if_true]
    split <;> omega

theorem segStep_count (st : SegState) (ns : Bool) (line nextNE : Line)
    (st2 : SegState) (ns2 : Bool)
    (hnl : ('\n') ∉ line)
    (haccnl : ∀ l ∈ st.sectionAcc, ('\n') ∉ l)
    (h : segStep st ns line nextNE = .ok (st2, ns2)) :
    totalNBL st2.sections + countNB st2.sectionAcc
      ≤ totalNBL st.sections + countNB st.sectionAcc + countNB [line]
    ∧ (∀ l ∈ st2.sectionAcc, ('\n') ∉ l) := by
  have hemit := emitted_countNB st.sectionAcc haccnl
  have hdropLe := countNB_single_le line
  rw [segStep_eq_cases] at h
  split at h
  · split at h
    · exact Except.noConfusion h
    · rw [Except.ok.injEq, Prod.mk.injEq] at h
      obtain ⟨h1, _⟩ := h
      rw [← h1]
      dsimp only
      refine ⟨?_, ?_⟩
      · rw [totalNBL_append]
        omega
      · intro l hl
        simp at hl
        subst hl
        exact hnl
  · split at h <;> split at h <;>
      (rw [Except.ok.injEq, Prod.mk.injEq] at h
       obtain ⟨h1, _⟩ := h
       rw [← h1]
       dsimp only) <;>
      refine ⟨?_, ?_⟩
    · rw [totalNBL_append]
      omega
    · intro l hl
      simp at hl
      subst hl
      exact hnl
    · rw [countNB_append]
      have := hdropLe (getIndent line)
      omega
    · intro l hl
      rw [List.mem_append] at hl
      rcases hl with hl | hl
      · exact haccnl l hl
      · simp at hl
        subst hl
        intro hm
        exact hnl (List.drop_subset _ _ hm)
    · rw [totalNBL_append]
      omega
    · intro l hl
      simp at hl
      subst hl
      exact hnl
    · rw [countNB_append]
      have := hdropLe st.indent
      omega
    · intro l hl
      rw [List.mem_append] at hl
      rcases hl with hl | hl
      · exact haccnl l hl
      · simp at hl
        subst hl
        intro hm
        exact hnl (List.drop_subset _ _ hm)

theorem extractAux_count :
    ∀ (ls : List Line) (st : SegState) (ns : Bool) (st2 : SegState),
      (∀ l ∈ ls, ('\n') ∉ l) → (∀ l ∈ st.sectionAcc, ('\n') ∉ l) →
      extractAux ls st ns = .ok st2 →
      totalNBL st2.sections ≤ totalNBL st.sections + countNB st.sectionAcc + countNB ls := by
  intro ls
  induction ls with
  | nil =>
    intro st ns st2 hnl haccnl h
    unfold extractAux at h
    rw [Except.ok.injEq] at h
    rw [← h]
    rw [endSection_eq]
    have := emitted_countNB st.sectionAcc haccnl
    simp only [beginSection]
    rw [totalNBL_append]
    have hnil : countNB ([] : List Line) = 0 := rfl
    omega
  | cons l rest ih =>
    intro st ns st2 hnl haccnl h
    unfold extractAux at h
    cases hstep : segStep st ns l (nextNonEmpty rest) with
    | error e => rw [hstep] at h; exact Except.noConfusion h
    | ok p =>
      obtain ⟨stm, nsm⟩ := p
      rw [hstep] at h
      obtain ⟨hcnt, haccm⟩ := segStep_count st ns l (nextNonEmpty rest) stm nsm
        (hnl l (by simp)) haccnl hstep
      have hrec := ih stm nsm st2 (fun x hx => hnl x (by simp [hx])) haccm h
      have hsplit : countNB (l :: rest) = countNB [l] + countNB rest := by
        rw [show (l :: rest) = [l] ++ rest from rfl, countNB_append]
      omega

/-- Claim C2, corrected.  The bound `total ≤ N - H` is false because a
recognized header line is kept as the first line of its section block
(only `parse_section` skips it later); what holds of segmentation is
`total ≤ N`: the blocks never hold more non-blank lines than the
docstring (indent stripping preserves blankness and all-blank pending
sections are dropped). -/
theorem extract_sections_nonblank_bound (doc : String) (secs : List String)
    (h : extractSections doc = .ok secs) :
    totalNB secs ≤ nonBlankCount doc := by
  unfold extractSections at h
  cases hx : extractSectionsFrom doc SegState.init with
  | error e => rw [hx] at h; exact Except.noConfusion h
  | ok st2 =>
    rw [hx] at h
    have h2 : Except.ok (st2.sections.map String.mk) = Except.ok secs := h
    rw [Except.ok.injEq] at h2
    have hTB : totalNB (st2.sections.map String.mk) = totalNBL st2.sections := by
      unfold totalNB totalNBL
      rw [List.map_map]
      rfl
    unfold extractSectionsFrom at hx
    have hlines := sep_not_mem_pySplit '\n' doc.toList
    have hbound := extractAux_count (pySplit '\n' doc.toList) SegState.init true st2
      hlines (by simp [SegState.init]) hx
    unfold nonBlankCount
    rw [← h2, hTB]
    have hinit1 : totalNBL SegState.init.sections = 0 := rfl
    have hinit2 : countNB SegState.init.sectionAcc = 0 := rfl
    omega

/-- Witness for the amended C2 on a concrete docstring. -/
theorem extract_sections_nonblank_bound_witness :
    totalNB (["hello"]) ≤ nonBlankCount ("hello") :=
  extract_sections_nonblank_bound ("hello") (["hello"]) (by rfl)

theorem getIndent_le_run (l : Line) :
    getIndent l ≤ (l.takeWhile isPySpace).length := by
  rw [getIndent_def]
  split
  · exact le_refl _
  · exact Nat.zero_le _

theorem emitted_no_header (acc : List Line)
    (hacc : ∀ l ∈ acc, isHeader l = false ∧ ('\n') ∉ l) :
    ∀ s ∈ emitted acc, ∀ l ∈ pySplit '\n' s, isHeader l = false := by
  intro s hs
  unfold emitted at hs
  split at hs
  · simp at hs
  next hblank =>
    simp at hs
    subst hs
    have hne : acc ≠ [] := by
      intro hnil
      subst hnil
      exact hblank rfl
    rw [pySplit_joinWith '\n' acc hne (fun x hx => (hacc x hx).2)]
    intro l hl
    exact (hacc l hl).1

theorem segStep_no_header (st : SegState) (ns : Bool) (line nextNE : Line)
    (st2 : SegState) (ns2 : Bool)
    (hline : isHeader line = false) (hnl : ('\n') ∉ line)
    (hsec : ∀ s ∈ st.sections, ∀ l ∈ pySplit '\n' s, isHeader l = false)
    (hacc : ∀ l ∈ st.sectionAcc, isHeader l = false ∧ ('\n') ∉ l)
    (h : segStep st ns line nextNE = .ok (st2, ns2)) :
    (∀ s ∈ st2.sections, ∀ l ∈ pySplit '\n' s, isHeader l = false)
    ∧ (∀ l ∈ st2.sectionAcc, isHeader l = false ∧ ('\n') ∉ l) := by
  have hsec2 : ∀ s ∈ st.sections ++ emitted st.sectionAcc,
      ∀ l ∈ pySplit '\n' s, isHeader l = false := by
    intro s hs
    rw [List.mem_append] at hs
    rcases hs with hs | hs
    · exact hsec s hs
    · exact emitted_no_header st.sectionAcc hacc s hs
  rw [segStep_eq_cases] at h
  simp only [hline, Bool.false_eq_true, if_false] at h
  split at h
  · -- threshold just locked to the line's own indent
    split at h
    · rw [Except.ok.injEq, Prod.mk.injEq] at h
      obtain ⟨h1, _⟩ := h
      rw [← h1]
      dsimp only
      refine ⟨hsec2, ?_⟩
      intro l hl
      simp at hl
      subst hl
      exact ⟨hline, hnl⟩
    · rw [Except.ok.injEq, Prod.mk.injEq] at h
      obtain ⟨h1, _⟩ := h
      rw [← h1]
      dsimp only
      refine ⟨hsec, ?_⟩
      intro l hl
      rw [List.mem_append] at hl
      rcases hl with hl | hl
      · exact hacc l hl
      · simp at hl
        subst hl
        constructor
        · have htake : (line.take (getIndent line)).all isPySpace = true :=
            take_all_of_le_takeWhile line _ (getIndent_le_run line)
          rw [isHeader_drop line _ htake]
          exact hline
        · intro hm
          exact hnl (List.drop_subset _ _ hm)
  · -- threshold unchanged
    split at h
    · rw [Except.ok.injEq, Prod.mk.injEq] at h
      obtain ⟨h1, _⟩ := h
      rw [← h1]
      dsimp only
      refine ⟨hsec2, ?_⟩
      intro l hl
      simp at hl
      subst hl
      exact ⟨hline, hnl⟩
    next hcond =>
      rw [Except.ok.injEq, Prod.mk.injEq] at h
      obtain ⟨h1, _⟩ := h
      rw [← h1]
      dsimp only
      refine ⟨hsec, ?_⟩
      intro l hl
      rw [List.mem_append] at hl
      rcases hl with hl | hl
      · exact hacc l hl
      · simp at hl
        subst hl
        push_neg at hcond
        constructor
        · have htake : (line.take st.indent).all isPySpace = true := by
            by_cases h0 : line = []
            · subst h0
              simp
            · have hle : st.indent ≤ getIndent line := by
                have := hcond h0
                omega
              exact take_all_of_le_takeWhile line _
                (le_trans hle (getIndent_le_run line))
          rw [isHeader_drop line _ htake]
          exact hline
        · intro hm
          exact hnl (List.drop_subset _ _ hm)

theorem extractAux_no_header :
    ∀ (ls : List Line) (st : SegState) (ns : Bool) (st2 : SegState),
      (∀ l ∈ ls, isHeader l = false ∧ ('\n') ∉ l) →
      (∀ s ∈ st.sections, ∀ l ∈ pySplit '\n' s, isHeader l = false) →
      (∀ l ∈ st.sectionAcc, isHeader l = false ∧ ('\n') ∉ l) →
      extractAux ls st ns = .ok st2 →
      ∀ s ∈ st2.sections, ∀ l ∈ pySplit '\n' s, isHeader l = false := by
  intro ls
  induction ls with
  | nil =>
    intro st ns st2 hnh hsec hacc h
    unfold extractAux at h
    rw [Except.ok.injEq] at h
    rw [← h]
    rw [endSection_eq]
    simp only [beginSection]
    intro s hs
    rw [List.mem_append] at hs
    rcases hs with hs | hs
    · exact hsec s hs
    · exact emitted_no_header st.sectionAcc hacc s hs
  | cons l rest ih =>
    intro st ns st2 hnh hsec hacc h
    unfold extractAux at h
    cases hstep : segStep st ns l (nextNonEmpty rest) with
    | error e => rw [hstep] at h; exact Except.noConfusion h
    | ok p =>
      obtain ⟨stm, nsm⟩ := p
      rw [hstep] at h
      obtain ⟨hsecm, haccm⟩ := segStep_no_header st ns l (nextNonEmpty rest) stm nsm
        (hnh l (by simp)).1 (hnh l (by simp)).2 hsec hacc hstep
      exact ih stm nsm st2 (fun x hx => hnh x (by simp [hx])) hsecm haccm h

/-- Claim C1, corrected.  A docstring without header lines can still be
split into several sections (an indent drop is also a section
terminator, see the counterexample) or into none (all-blank input), so
"exactly one section" fails; what holds is that every emitted section
parses with the empty header: stripping the locked indent removes only
whitespace, so a non-header line can never become a header line. -/
theorem headerless_sections_have_empty_header (doc : String) (secs : List String)
    (hnh : ∀ l ∈ pySplit '\n' doc.toList, isHeader l = false)
    (h : extractSections doc = .ok secs) :
    ∀ s ∈ secs, (parseSection s.toList).header = "" := by
  unfold extractSections at h
  cases hx : extractSectionsFrom doc SegState.init with
  | error e => rw [hx] at h; exact Except.noConfusion h
  | ok st2 =>
    rw [hx] at h
    have h2 : Except.ok (st2.sections.map String.mk) = Except.ok secs := h
    rw [Except.ok.injEq] at h2
    unfold extractSectionsFrom at hx
    have hinv := extractAux_no_header (pySplit '\n' doc.toList) SegState.init true st2
      (fun l hl => ⟨hnh l hl, sep_not_mem_pySplit '\n' doc.toList l hl⟩)
      (by simp [SegState.init]) (by simp [SegState.init]) hx
    intro s hs
    rw [← h2] at hs
    rw [List.mem_map] at hs
    obtain ⟨cs, hcs, hmk⟩ := hs
    have hlines := hinv cs hcs
    have hgoal : (parseSection cs).header = "" := by
      unfold parseSection
      dsimp only
      apply getHeader_of_not_header
      cases hsp : pySplit '\n' cs with
      | nil => exact absurd hsp (pySplit_ne_nil '\n' cs)
      | cons a as =>
        have ha := hlines a (by rw [hsp]; simp)
        simpa using ha
    rw [← hmk]
    exact hgoal

/-- Witness for the amended C1: the headerless docstring `"    a\nb"`
yields sections `["a", "b"]`, each parsing with the empty header. -/
theorem headerless_sections_have_empty_header_witness :
    (parseSection (("a" : String).toList)).header = "" :=
  headerless_sections_have_empty_header ("    a\nb") (["a", "b"])
    (by decide) (by rfl) ("a") (by simp)

end Gdocstr
